import Mathlib

/-!
Verification of the NuX normalizing-flow repository.

This file shallowly embeds the parts of the source that the claims of the spec
are about:
* the network-construction dispatch on nonlinearity / normalization /
  block-type names (src/nux/networks/mlp.py, src/nux/networks/cnn.py);
* the affine-Gaussian priors (src/src/flows/priors.py);
* the checkpoint resume/save paths (src/glow_injective.py);
* the bisection root finder and the mixture-CDF bijections
  (src/nux/flows/bijective/mixture.py).

Machine floats are modelled by real numbers; Python errors by an
explicit error type.
-/

namespace NuX

/-! ## Python construction-time outcomes

A Python `__init__` either finishes or raises.  We model the two kinds of
exception the cited constructors can raise: `NameError` (reference to an
unbound name) and `AssertionError` (from an `assert 0` guard). -/

inductive InitErr : Type
  | nameError (missing : String)
  | assertionError (msg : String)
  deriving DecidableEq, Repr

/-! ## Nonlinearity dispatch

Embeds the `if nonlinearity == ... elif ... else: assert 0` chains of the
three constructors.  The value `Unit` stands for a successfully stored
`self.nonlinearity`.

In `MLP.__init__` (src/nux/networks/mlp.py lines 71-82) the `"swish"`
branch evaluates `jax.nn.swish(x)` where no variable `x` is in scope, so
reaching that branch raises `NameError: x`. -/

def mlpNonlinearity (nonlinearity : String) : Except InitErr Unit :=
  if nonlinearity = "relu" then .ok ()
  else if nonlinearity = "tanh" then .ok ()
  else if nonlinearity = "sigmoid" then .ok ()
  else if nonlinearity = "swish" then .error (.nameError "x")
  else if nonlinearity = "lipswish" then .ok ()
  else .error (.assertionError "Invalid nonlinearity")

/-- Embeds the nonlinearity chain of `ConvBlock.__init__`
(src/nux/networks/cnn.py lines 277-288); the `"swish"` branch likewise
evaluates `jax.nn.swish(x)` with `x` unbound. -/
def convBlockNonlinearity (nonlinearity : String) : Except InitErr Unit :=
  if nonlinearity = "relu" then .ok ()
  else if nonlinearity = "tanh" then .ok ()
  else if nonlinearity = "sigmoid" then .ok ()
  else if nonlinearity = "swish" then .error (.nameError "x")
  else if nonlinearity = "lipswish" then .ok ()
  else .error (.assertionError "Invalid nonlinearity")

/-- Embeds the nonlinearity chain of `RepeatedConv.__init__`
(src/nux/networks/cnn.py lines 166-177).  Here the `"swish"` branch stores
the function `jax.nn.swish` without calling it, so it succeeds. -/
def repeatedConvNonlinearity (nonlinearity : String) : Except InitErr Unit :=
  if nonlinearity = "relu" then .ok ()
  else if nonlinearity = "tanh" then .ok ()
  else if nonlinearity = "sigmoid" then .ok ()
  else if nonlinearity = "swish" then .ok ()
  else if nonlinearity = "lipswish" then .ok ()
  else .error (.assertionError "Invalid nonlinearity")

/-- The normalization choice `RepeatedConv.__init__` stores in `self.norm`. -/
inductive NormChoice : Type
  | batchNorm
  | instanceNorm
  | noNorm
  deriving DecidableEq, Repr

/-- Embeds the normalization chain of `RepeatedConv.__init__`
(src/nux/networks/cnn.py lines 179-191): `"batch_norm"` and
`"instance_norm"` select a normalizer, and every other string falls into
the final `else: self.norm = None` branch, raising nothing. -/
def repeatedConvNormalization (normalization : String) : Except InitErr NormChoice :=
  if normalization = "batch_norm" then .ok .batchNorm
  else if normalization = "instance_norm" then .ok .instanceNorm
  else .ok .noNorm

/-- Embeds the block-type dispatch of `CNN.__init__`
(src/nux/networks/cnn.py lines 385-390): anything other than
`"bottleneck"` or `"reverse_bottleneck"` hits `assert 0`. -/
def cnnBlockType (blockType : String) : Except InitErr Unit :=
  if blockType = "bottleneck" then .ok ()
  else if blockType = "reverse_bottleneck" then .ok ()
  else .error (.assertionError "Invalid block type")

/-- Full `RepeatedConv.__init__` configuration outcome: the nonlinearity
chain runs first (lines 166-177), then the normalization chain
(lines 179-191). -/
def repeatedConvInit (nonlinearity normalization : String) : Except InitErr NormChoice := do
  let _ ← repeatedConvNonlinearity nonlinearity
  repeatedConvNormalization normalization

/-! ## Mixture parameter bookkeeping (src/nux/flows/bijective/mixture.py)

`mixture_forward` and `mixture_inverse` receive a flat per-element
parameter vector `theta` and recover the component count from its width
(line 61): `n_components = (theta.shape[-1] - 2)//3`. -/

def nComponentsFromWidth (width : Nat) : Nat := (width - 2) / 3

/-- Embeds the `jnp.split(theta, [K, 2K, 3K, 3K+1], axis=-1)` of
`mixture_forward` / `mixture_inverse` (lines 62-65 and 94-97) together
with the subsequent `log_s[...,0]` and `t[...,0]` selections: the five
pieces are `theta[0:K]` (weight logits), `theta[K:2K]` (means),
`theta[2K:3K]` (log scales), `theta[3K]` (raw pre-affine log scale) and
`theta[3K+1]` (pre-affine shift), where `K = (len(theta) - 2)//3`. -/
def splitTheta (theta : List ℝ) : List ℝ × List ℝ × List ℝ × ℝ × ℝ :=
  (theta.take (nComponentsFromWidth theta.length),
   (theta.drop (nComponentsFromWidth theta.length)).take (nComponentsFromWidth theta.length),
   (theta.drop (2 * nComponentsFromWidth theta.length)).take (nComponentsFromWidth theta.length),
   ((theta.drop (3 * nComponentsFromWidth theta.length)).take 1).getD 0 0,
   (theta.drop (3 * nComponentsFromWidth theta.length + 1)).getD 0 0)

/-- Embeds `CouplingMixtureCDF.get_out_shape`
(src/nux/flows/bijective/mixture.py lines 230-233): the conditioner
output width is `x_shape[-1] * 3 * n_components`, i.e. `3K` slots per
element of the transformed half `xb`. -/
def couplingGetOutDim (nComponents xbLastDim : Nat) : Nat :=
  xbLastDim * 3 * nComponents

/-! ## Full-covariance affine-Gaussian prior (src/src/flows/priors.py)

Both directions of `AffineGaussianPriorFullCov` reference unbound names
and therefore raise `NameError` on every call. -/

/-- Embeds `AffineGaussianPriorFullCov.forward` (src/src/flows/priors.py
lines 48-80).  The body runs through the parameter unpacking and the
`Sigma_chol_flat[triangular_indices]` / `jnp.diag` lines, then line 59
evaluates the bare name `index_update`, which is bound nowhere in the
module (only `jax.ops.index_update` exists), so every call raises
`NameError: index_update` before any output is produced.  (The later
lines would also write to `outputs` without initializing it.)  The `ok`
payload type `(z, log_det, state)` is never reached. -/
def fullCovForward {dx dz : Nat} (A : Matrix (Fin dx) (Fin dz) ℝ)
    (SigmaCholFlat : List ℝ) (sigma : ℝ) (x : Fin dx → ℝ) :
    Except InitErr ((Fin dz → ℝ) × ℝ × ℝ) :=
  Except.error (.nameError "index_update")

/-- Embeds `AffineGaussianPriorFullCov.inverse` (src/src/flows/priors.py
lines 82-110).  The body computes `x = A@z`, rebuilds `Sigma_chol`
(line 95 uses the qualified `jax.ops.index_update`, which exists), and
optionally adds noise; then line 106 reads `log_diag_cov`, a name never
bound in this function or module, so every call — with or without an RNG
key — raises `NameError: log_diag_cov` before producing outputs. -/
def fullCovInverse {dx dz : Nat} (A : Matrix (Fin dx) (Fin dz) ℝ)
    (SigmaCholFlat : List ℝ) (sigma : ℝ) (z : Fin dz → ℝ)
    (key : Option (Fin dx → ℝ)) :
    Except InitErr ((Fin dx → ℝ) × ℝ × ℝ) :=
  Except.error (.nameError "log_diag_cov")

/-! ## Checkpoint resume and save paths (src/glow_injective.py)

The resume block (lines 123-136) and the periodic save block
(lines 194-199) build their file paths by string concatenation. -/

/-- The directory prefix built on line 124: `Experiments/` plus the
experiment name, a slash, the iteration number and a slash. -/
def expDir (experimentName : String) (it : Nat) : String :=
  "Experiments/" ++ experimentName ++ "/" ++ toString it ++ "/"

/-- File the NF variant state is loaded from on resume (line 126). -/
def resumeStateNFFile (experimentName : String) (it : Nat) : String :=
  expDir experimentName it ++ "state_nf_leaves.p"

/-- File the NIF variant state is loaded from on resume (line 127): the
source passes the literal `state_nf_leaves.p`, i.e. the NF variant file. -/
def resumeStateNIFFile (experimentName : String) (it : Nat) : String :=
  expDir experimentName it ++ "state_nf_leaves.p"

/-- File the NIF variant state is saved to at a checkpoint (line 199). -/
def saveStateNIFFile (experimentName : String) (it : Nat) : String :=
  expDir experimentName it ++ "state_nif_leaves.p"

/-- Loading via `load_pytree` reads whatever the filesystem holds at a path; the
filesystem is modelled as a map from paths to pytree leaf collections. -/
def resumedStateNF {α : Type} (fs : String → α) (experimentName : String) (it : Nat) : α :=
  fs (resumeStateNFFile experimentName it)

/-- The NIF state actually loaded on resume (line 127). -/
def resumedStateNIF {α : Type} (fs : String → α) (experimentName : String) (it : Nat) : α :=
  fs (resumeStateNIFFile experimentName it)

/-! ## Bisection root finder (src/nux/flows/bijective/mixture.py lines 24-55)

Reals stand for machine floats.  The loop-carried tuple
`(x, current_x, current_z, lower, upper, dx, i)` becomes a structure; the
iteration counter, a float `0.0` in the source, is kept as a natural
number. -/

structure BisectVal : Type where
  x : ℝ
  currentX : ℝ
  currentZ : ℝ
  lower : ℝ
  upper : ℝ
  dx : ℝ
  i : Nat

/-- The `atol=1e-8` default of `bisection` (line 40). -/
def bisectionAtol : ℝ := 1e-8

/-- The `max_iters=10000` default of `bisection` (line 40). -/
def bisectionMaxIters : Nat := 10000

/-- Embeds `bisection_body` (lines 24-38).  The float mask
`gt = current_x > x`, `lt = 1.0 - gt` is the indicator of the comparison;
the new midpoint, bracket ends, function value and residual follow the
source lines verbatim. -/
noncomputable def bisectionBody (f : ℝ → ℝ) (v : BisectVal) : BisectVal :=
  let gt : ℝ := if v.currentX > v.x then 1 else 0
  let lt : ℝ := 1 - gt
  let newZ := gt * (0.5 * (v.currentZ + v.lower)) + lt * (0.5 * (v.currentZ + v.upper))
  let lower := gt * v.lower + lt * v.currentZ
  let upper := gt * v.currentZ + lt * v.upper
  let currentX := f newZ
  { x := v.x, currentX := currentX, currentZ := newZ, lower := lower,
    upper := upper, dx := currentX - v.x, i := v.i + 1 }

/-- Embeds `cond_fun` (lines 44-50): continue while neither
`i > max_iters` nor `jnp.allclose(dx, 0.0, atol=atol)` holds; with a zero
reference value `allclose` is `|dx| <= atol`. -/
def bisectionCond (v : BisectVal) : Prop :=
  ¬(v.i > bisectionMaxIters ∨ |v.dx| ≤ bisectionAtol)

/-- The guard `cond_fun` is a classically decidable test, as a float comparison. -/
noncomputable instance : DecidablePred bisectionCond :=
  fun _ => Classical.propDecidable _

/-- The `jax.lax.while_loop` of line 53, as a fuelled loop.  The source
loop is unbounded but `cond_fun` forces an exit after at most
`max_iters + 1` body steps, so any fuel of at least `max_iters + 2`
realizes the exact `while_loop` semantics. -/
noncomputable def bisectionLoop (f : ℝ → ℝ) : Nat → BisectVal → BisectVal
  | 0, v => v
  | fuel + 1, v =>
      if bisectionCond v then bisectionLoop f fuel (bisectionBody f v) else v

/-- The initial loop value of line 52: `z = jnp.zeros_like(x)`,
`val = (x, f(z), z, lower, upper, ones_like(x)*10.0, 0.0)`. -/
noncomputable def bisectionInit (f : ℝ → ℝ) (lower upper x : ℝ) : BisectVal :=
  { x := x, currentX := f 0, currentZ := 0, lower := lower, upper := upper,
    dx := 10, i := 0 }

/-- The final loop value of `bisection` (lines 40-55). -/
noncomputable def bisectionRun (f : ℝ → ℝ) (lower upper x : ℝ) : BisectVal :=
  bisectionLoop f (bisectionMaxIters + 2) (bisectionInit f lower upper x)

/-- The function `bisection` returns `current_z` of the final loop value (line 55). -/
noncomputable def bisection (f : ℝ → ℝ) (lower upper x : ℝ) : ℝ :=
  (bisectionRun f lower upper x).currentZ

/-- The bracketing invariant of the bisection loop at the call site
`lower = -1000`, `upper = 1000`, target `f xs`: the bracket contains the
pre-image `xs`, `current_z` is the bracket midpoint, `current_x` caches
`f current_z`, the bracket width is `2000 / 2^i`, and the residual `dx`
is `current_x - x` except in the dummy initial state. -/
def bisectInvariant (f : ℝ → ℝ) (xs : ℝ) (v : BisectVal) : Prop :=
  v.x = f xs ∧
  v.lower ≤ xs ∧
  xs ≤ v.upper ∧
  v.currentZ = (v.lower + v.upper) / 2 ∧
  v.currentX = f v.currentZ ∧
  v.upper - v.lower = 2000 / 2 ^ v.i ∧
  (v.dx = v.currentX - v.x ∨ (v.i = 0 ∧ v.dx = 10))

/-! ## Mixture CDF bijections (src/nux/flows/bijective/mixture.py)

The per-element arrays of mixture components become lists of reals;
elementwise array arithmetic over the component axis becomes a
three-list `zipWith`. -/

/-- Elementwise combination over the component axis. -/
def zip3With (g : ℝ → ℝ → ℝ → ℝ) : List ℝ → List ℝ → List ℝ → List ℝ
  | w :: ws, m :: ms, s :: ss => g w m s :: zip3With g ws ms ss
  | _, _, _ => []

/-- Embeds `jax.nn.log_softmax`: subtract the log of the summed exponentials. -/
noncomputable def logSoftmax (l : List ℝ) : List ℝ :=
  l.map (fun a => a - Real.log ((l.map Real.exp).sum))

/-- Embeds `jax.scipy.special.logsumexp` over the component axis. -/
noncomputable def logsumexp (l : List ℝ) : ℝ :=
  Real.log ((l.map Real.exp).sum)

/-- Embeds `jax.nn.log_sigmoid z = -log(1 + exp(-z))`. -/
noncomputable def logSigmoid (z : ℝ) : ℝ :=
  -Real.log (1 + Real.exp (-z))

/-- Embeds `jax.scipy.special.ndtr`, the standard normal CDF. -/
noncomputable def ndtr (a : ℝ) : ℝ :=
  (Real.sqrt (2 * Real.pi))⁻¹ * ∫ t in Set.Iic a, Real.exp (-(1 / 2) * t ^ 2)

/-- Embeds `_GaussianMixtureMixin.f` (lines 267-272): normalize the
weight logits with log-softmax, evaluate each component CDF
`ndtr((x - mean) * exp(-0.5 * log_scale))`, and sum the weighted CDFs. -/
noncomputable def gaussF (weightLogits means logScales : List ℝ) (x : ℝ) : ℝ :=
  (zip3With (fun w m s => Real.exp w * ndtr ((x - m) * Real.exp (-0.5 * s)))
    (logSoftmax weightLogits) means logScales).sum

/-- Embeds `_GaussianMixtureMixin.log_det` (lines 274-279): the mixture
log density `logsumexp(weight_logits + log_pdf)` with per-component
`log_pdf = -0.5 dx^2 exp(-log_scale) - 0.5 log_scale - 0.5 log(2 pi)`. -/
noncomputable def gaussLogDet (weightLogits means logScales : List ℝ) (x : ℝ) : ℝ :=
  logsumexp (zip3With
    (fun w m s =>
      w + (-0.5 * (x - m) ^ 2 * Real.exp (-s) - 0.5 * s - 0.5 * Real.log (2 * Real.pi)))
    (logSoftmax weightLogits) means logScales)

/-- Embeds `_LogitsticMixtureMixin.f` (lines 296-301): the weighted
logistic CDFs are combined in log space, `exp(logsumexp(weight_logits +
log_sigmoid(z_scores)))` with `z_scores = (x - means) * exp(-log_scales)`. -/
noncomputable def logisticF (weightLogits means logScales : List ℝ) (x : ℝ) : ℝ :=
  Real.exp (logsumexp (zip3With
    (fun w m s => w + logSigmoid ((x - m) * Real.exp (-s)))
    (logSoftmax weightLogits) means logScales))

/-- Embeds `_LogitsticMixtureMixin.log_det` (lines 303-308): per
component `log_pdf = -log_scale + log_sigmoid(z) + log_sigmoid(-z)`. -/
noncomputable def logisticLogDet (weightLogits means logScales : List ℝ) (x : ℝ) : ℝ :=
  logsumexp (zip3With
    (fun w m s =>
      w + (-s + logSigmoid ((x - m) * Real.exp (-s)) + logSigmoid (-((x - m) * Real.exp (-s)))))
    (logSoftmax weightLogits) means logScales)

/-- The two mixture-CDF bijection variants the round-trip claims cover:
`GaussianMixtureCDF` and `LogisticMixtureCDF` (with their coupling
twins, which share `mixture_forward` / `mixture_inverse`). -/
inductive MixtureKind : Type
  | gaussian
  | logistic

/-- The `f` method the mixin supplies to `mixture_forward` /
`mixture_inverse`. -/
noncomputable def kindF : MixtureKind → List ℝ → List ℝ → List ℝ → ℝ → ℝ
  | .gaussian => gaussF
  | .logistic => logisticF

/-- The `log_det` method the mixin supplies. -/
noncomputable def kindLogDet : MixtureKind → List ℝ → List ℝ → List ℝ → ℝ → ℝ
  | .gaussian => gaussLogDet
  | .logistic => logisticLogDet

/-- One element of `mixture_forward` (lines 59-89) with
`with_affine_coupling=True`: split `theta`, bound the pre-affine log
scale through `1.5*tanh`, apply `f_and_log_det`, then the elementwise
affine `z = (z - t) * exp(-log_s)` with log-determinant contribution
`log_det - log_s`. -/
noncomputable def forwardElem (k : MixtureKind) (theta : List ℝ) (xi : ℝ) : ℝ × ℝ :=
  let w := (splitTheta theta).1
  let m := (splitTheta theta).2.1
  let s := (splitTheta theta).2.2.1
  let logS := 1.5 * Real.tanh (splitTheta theta).2.2.2.1
  let t := (splitTheta theta).2.2.2.2
  ((kindF k w m s xi - t) * Real.exp (-logS), kindLogDet k w m s xi - logS)

/-- One element of `mixture_inverse` (lines 91-135) with
`with_affine_coupling=True`: split `theta`, undo the affine step
`x = z * exp(log_s) + t`, invert the pure mixture CDF by bisection over
the fixed bracket `[-1000, 1000]`, and report
`log_det(recovered) - log_s`. -/
noncomputable def inverseElem (k : MixtureKind) (theta : List ℝ) (zi : ℝ) : ℝ × ℝ :=
  let w := (splitTheta theta).1
  let m := (splitTheta theta).2.1
  let s := (splitTheta theta).2.2.1
  let logS := 1.5 * Real.tanh (splitTheta theta).2.2.2.1
  let t := (splitTheta theta).2.2.2.2
  let target := zi * Real.exp logS + t
  let r := bisection (kindF k w m s) (-1000) 1000 target
  (r, kindLogDet k w m s r - logS)

/-- Embeds `mixture_forward` over a flattened element list, one parameter
vector per element (the `vmap` plumbing of lines 70-82 maps the
transform over every element); the reported log-determinant is the sum
of the per-element contributions (lines 82 and 87). -/
noncomputable def mixtureForward (k : MixtureKind) (x : List ℝ)
    (theta : List (List ℝ)) : List ℝ × ℝ :=
  let pairs := List.zipWith (fun xi ti => forwardElem k ti xi) x theta
  (pairs.map Prod.fst, (pairs.map Prod.snd).sum)

/-- Embeds `mixture_inverse` over a flattened element list (lines 91-135). -/
noncomputable def mixtureInverse (k : MixtureKind) (z : List ℝ)
    (theta : List (List ℝ)) : List ℝ × ℝ :=
  let pairs := List.zipWith (fun zi ti => inverseElem k ti zi) z theta
  (pairs.map Prod.fst, (pairs.map Prod.snd).sum)

/-! ### Spec-side formulas (for the refinement-style claims)

These restate, in the words of the spec, what one forward element should
produce; the theorems compare them with the source-side definitions. -/

/-- The mixture CDF of one element, on the mixture slots of `theta`. -/
noncomputable def specMixtureCDF (k : MixtureKind) (theta : List ℝ) (xi : ℝ) : ℝ :=
  kindF k (splitTheta theta).1 (splitTheta theta).2.1 (splitTheta theta).2.2.1 xi

/-- The mixture log density of one element (called the mixture
log-density term by the spec). -/
noncomputable def specMixtureLogDensity (k : MixtureKind) (theta : List ℝ) (xi : ℝ) : ℝ :=
  kindLogDet k (splitTheta theta).1 (splitTheta theta).2.1 (splitTheta theta).2.2.1 xi

/-- The bounded pre-affine log scale `1.5 * tanh(log_s)` of the spec. -/
noncomputable def specLogScaleBound (theta : List ℝ) : ℝ :=
  1.5 * Real.tanh (splitTheta theta).2.2.2.1

/-- The pre-affine shift `t` of the spec. -/
def specShift (theta : List ℝ) : ℝ :=
  (splitTheta theta).2.2.2.2

/-- The spec formula for the forward output
`z = (mixture_cdf(x) - t) * exp(-log_s)`. -/
noncomputable def specForwardZ (k : MixtureKind) (theta : List ℝ) (xi : ℝ) : ℝ :=
  (specMixtureCDF k theta xi - specShift theta) * Real.exp (-(specLogScaleBound theta))

/-! ## Diagonal-covariance affine-Gaussian prior (src/src/flows/priors.py) -/

/-- Embeds the matrix-vector `jnp.einsum` of priors.py line 188. -/
def einsumMV {m n : Nat} (A : Matrix (Fin m) (Fin n) ℝ) (v : Fin n → ℝ) : Fin m → ℝ :=
  fun i => ∑ j, A i j * v j

/-- Embeds `jnp.linalg.slogdet(M)[1]`, the log of the absolute determinant. -/
noncomputable def slogdetLogAbs {n : Nat} (M : Matrix (Fin n) (Fin n) ℝ) : ℝ :=
  Real.log |M.det|

/-- Modelled from the spec: `src.util.gaussian_diag_cov_logpdf` lives in
`src/util.py`, which is not part of the sources; the spec calls it "the
Gaussian log-pdf of the injected noise" with the diagonal covariance
`exp(log_diag_cov)`, which is the summed per-coordinate Gaussian log
density. -/
noncomputable def gaussianDiagCovLogpdf {n : Nat} (x mu logDiagCov : Fin n → ℝ) : ℝ :=
  ∑ i, (-(1 / 2) * Real.log (2 * Real.pi) - (1 / 2) * logDiagCov i -
    (1 / 2) * (x i - mu i) ^ 2 * Real.exp (-(logDiagCov i)))

/-- The values `AffineGaussianPriorDiagCov.inverse` returns:
the output value, the output log determinant, and the returned state
`sigma`. -/
structure DiagPriorOut (dx : Nat) : Type where
  x : Fin dx → ℝ
  log_det : ℝ
  sigma : ℝ

/-- Embeds `AffineGaussianPriorDiagCov.inverse` (src/src/flows/priors.py
lines 180-206).  `x = A @ z`; when an RNG key is supplied the standard
normal draw `eps` it determines is scaled by `exp(0.5*log_diag_cov) *
sigma` and added, and the log density is
`gaussian_diag_cov_logpdf(noise, 0, log_diag_cov)`; without a key no
noise is added and the log density is `-0.5 * slogdet(A^T A)[1]`.  The
incoming state `sigma` is returned unmodified in both branches. -/
noncomputable def diagCovInverse {dx dz : Nat} (A : Matrix (Fin dx) (Fin dz) ℝ)
    (logDiagCov : Fin dx → ℝ) (sigma : ℝ) (z : Fin dz → ℝ)
    (key : Option (Fin dx → ℝ)) : DiagPriorOut dx :=
  match key with
  | none =>
      { x := einsumMV A z,
        log_det := -0.5 * slogdetLogAbs (A.transpose * A),
        sigma := sigma }
  | some eps =>
      { x := fun i => einsumMV A z i + eps i * Real.exp (0.5 * logDiagCov i) * sigma,
        log_det := gaussianDiagCovLogpdf
          (fun i => eps i * Real.exp (0.5 * logDiagCov i) * sigma)
          (fun _ => 0) logDiagCov,
        sigma := sigma }

end NuX

namespace NuX

/-! ## Theorems for the discrete claims -/

/-- C3: the coupling conditioner is sized to emit `3K` parameters per
element of `xb` (`get_out_shape`), but `mixture_forward` consumes a
width-`L` theta as `(L-2)//3` components plus an affine pair.  At the
constructor default `n_components = 8` with a single `xb` element the
conditioner emits 24 values, which `mixture_forward` splits into only
`7` weight logits / means / log scales, takes slot 21 as the pre-affine
log scale and slot 22 as the shift, and never reads slot 23 — not the
`8/8/8`-with-no-affine layout the declared component count promises. -/
theorem C3_coupling_theta_width_mismatch :
    couplingGetOutDim 8 1 = 24 ∧
    nComponentsFromWidth 24 = 7 ∧
    (splitTheta [0, 1, 2, 3, 4, 5, 6, 7, 8, 9, 10, 11, 12, 13, 14, 15, 16,
      17, 18, 19, 20, 21, 22, 23]).1.length = 7 ∧
    (splitTheta [0, 1, 2, 3, 4, 5, 6, 7, 8, 9, 10, 11, 12, 13, 14, 15, 16,
      17, 18, 19, 20, 21, 22, 23]).2.2.2.1 = 21 ∧
    (splitTheta [0, 1, 2, 3, 4, 5, 6, 7, 8, 9, 10, 11, 12, 13, 14, 15, 16,
      17, 18, 19, 20, 21, 22, 23]).2.2.2.2 = 22 ∧
    7 ≠ 8 :=
  ⟨rfl, rfl, rfl, rfl, rfl, by omega⟩

/-- C7 counterexample: the claim says an unknown normalization kind
aborts construction, but `RepeatedConv` constructed with the unknown
normalization name `"group_norm"` succeeds, silently selecting no
normalization. -/
theorem C7_counterexample_unknown_normalization_accepted :
    repeatedConvInit "relu" "group_norm" = .ok .noNorm := by
  rfl

/-- C7 (amended): an unknown nonlinearity name or an unknown block type
raises immediately at construction time in every cited constructor, but
an unknown normalization kind does not abort: it is silently mapped to
the no-normalization branch. -/
theorem C7_unknown_names :
    (∀ s : String,
      s ∉ (["relu", "tanh", "sigmoid", "swish", "lipswish"] : List String) →
      mlpNonlinearity s = .error (.assertionError "Invalid nonlinearity") ∧
      convBlockNonlinearity s = .error (.assertionError "Invalid nonlinearity") ∧
      repeatedConvNonlinearity s = .error (.assertionError "Invalid nonlinearity")) ∧
    (∀ b : String,
      b ∉ (["bottleneck", "reverse_bottleneck"] : List String) →
      cnnBlockType b = .error (.assertionError "Invalid block type")) ∧
    (∀ n : String,
      n ∉ (["batch_norm", "instance_norm"] : List String) →
      repeatedConvNormalization n = .ok .noNorm) := by
  refine ⟨fun s hs => ?_, fun b hb => ?_, fun n hn => ?_⟩
  · obtain ⟨h1, h2, h3, h4, h5⟩ :
        s ≠ "relu" ∧ s ≠ "tanh" ∧ s ≠ "sigmoid" ∧ s ≠ "swish" ∧ s ≠ "lipswish" := by
      simpa using hs
    refine ⟨?_, ?_, ?_⟩ <;>
      simp [mlpNonlinearity, convBlockNonlinearity, repeatedConvNonlinearity,
        h1, h2, h3, h4, h5]
  · obtain ⟨h1, h2⟩ : b ≠ "bottleneck" ∧ b ≠ "reverse_bottleneck" := by simpa using hb
    simp [cnnBlockType, h1, h2]
  · obtain ⟨h1, h2⟩ : n ≠ "batch_norm" ∧ n ≠ "instance_norm" := by simpa using hn
    simp [repeatedConvNormalization, h1, h2]

/-- C7 witness: instantiating the amended theorem at the concrete unknown
names `"selu"` (nonlinearity), `"dense"` (block type) and `"group_norm"`
(normalization). -/
theorem C7_unknown_names_witness :
    mlpNonlinearity "selu" = .error (.assertionError "Invalid nonlinearity") ∧
    cnnBlockType "dense" = .error (.assertionError "Invalid block type") ∧
    repeatedConvNormalization "group_norm" = .ok .noNorm :=
  ⟨(C7_unknown_names.1 "selu" (by decide)).1,
   C7_unknown_names.2.1 "dense" (by decide),
   C7_unknown_names.2.2 "group_norm" (by decide)⟩

/-- C8: both directions of `AffineGaussianPriorFullCov` raise `NameError`
on every call — the forward pass at the unqualified `index_update`, the
inverse pass at the unbound `log_diag_cov` — so neither direction ever
returns a result, for all parameters, states, inputs and RNG keys. -/
theorem C8_full_cov_always_raises {dx dz : Nat} (A : Matrix (Fin dx) (Fin dz) ℝ)
    (SigmaCholFlat : List ℝ) (sigma : ℝ) (x : Fin dx → ℝ) (z : Fin dz → ℝ)
    (key : Option (Fin dx → ℝ)) :
    fullCovForward A SigmaCholFlat sigma x = .error (.nameError "index_update") ∧
    fullCovInverse A SigmaCholFlat sigma z key = .error (.nameError "log_diag_cov") :=
  ⟨rfl, rfl⟩

/-- C9: on resume, the NIF variant state is loaded from the NF variant
file `state_nf_leaves.p` (not from the `state_nif_leaves.p` file the
checkpoint writer saves it to), so both variants resume with the NF
variant saved state: the two resumed states coincide for every
filesystem content. -/
theorem C9_nif_resumes_from_nf_file {α : Type} (fs : String → α)
    (experimentName : String) (it : Nat) :
    resumeStateNIFFile experimentName it = resumeStateNFFile experimentName it ∧
    resumeStateNIFFile experimentName it ≠ saveStateNIFFile experimentName it ∧
    resumedStateNIF fs experimentName it = resumedStateNF fs experimentName it := by
  refine ⟨rfl, ?_, rfl⟩
  intro h
  have hlen := congrArg String.length h
  have e1 : ("state_nf_leaves.p" : String).length = 17 := rfl
  have e2 : ("state_nif_leaves.p" : String).length = 18 := rfl
  simp only [resumeStateNIFFile, saveStateNIFFile, String.length_append, e1, e2] at hlen
  omega

/-- C10: the accepted nonlinearity name `"swish"` raises `NameError` at
construction time in `MLP` and `ConvBlock` (both evaluate
`jax.nn.swish(x)` with `x` unbound), while every other accepted name
constructs successfully, and `RepeatedConv` handles `"swish"`
correctly. -/
theorem C10_swish_name_error :
    mlpNonlinearity "swish" = .error (.nameError "x") ∧
    convBlockNonlinearity "swish" = .error (.nameError "x") ∧
    repeatedConvNonlinearity "swish" = .ok () ∧
    mlpNonlinearity "relu" = .ok () ∧
    mlpNonlinearity "tanh" = .ok () ∧
    mlpNonlinearity "sigmoid" = .ok () ∧
    mlpNonlinearity "lipswish" = .ok () ∧
    convBlockNonlinearity "relu" = .ok () ∧
    convBlockNonlinearity "tanh" = .ok () ∧
    convBlockNonlinearity "sigmoid" = .ok () ∧
    convBlockNonlinearity "lipswish" = .ok () :=
  ⟨rfl, rfl, rfl, rfl, rfl, rfl, rfl, rfl, rfl, rfl, rfl⟩

/-! ## Bisection loop lemmas -/

theorem bisectionBody_i (f : ℝ → ℝ) (v : BisectVal) :
    (bisectionBody f v).i = v.i + 1 := rfl

theorem bisectionBody_x (f : ℝ → ℝ) (v : BisectVal) :
    (bisectionBody f v).x = v.x := rfl

/-- When `current_x > x`, one body step tightens the bracket to
`[lower, current_z]` and moves to its midpoint. -/
theorem bisectionBody_gt (f : ℝ → ℝ) (v : BisectVal) (hgt : v.currentX > v.x) :
    bisectionBody f v =
      { x := v.x, currentX := f ((v.currentZ + v.lower) / 2),
        currentZ := (v.currentZ + v.lower) / 2, lower := v.lower,
        upper := v.currentZ, dx := f ((v.currentZ + v.lower) / 2) - v.x,
        i := v.i + 1 } := by
  simp only [bisectionBody, if_pos hgt]
  norm_num
  refine ⟨congrArg f (by ring), by ring, congrArg f (by ring)⟩

/-- When `current_x <= x`, one body step tightens the bracket to
`[current_z, upper]` and moves to its midpoint. -/
theorem bisectionBody_le (f : ℝ → ℝ) (v : BisectVal) (hle : ¬ v.currentX > v.x) :
    bisectionBody f v =
      { x := v.x, currentX := f ((v.currentZ + v.upper) / 2),
        currentZ := (v.currentZ + v.upper) / 2, lower := v.currentZ,
        upper := v.upper, dx := f ((v.currentZ + v.upper) / 2) - v.x,
        i := v.i + 1 } := by
  simp only [bisectionBody, if_neg hle]
  norm_num
  refine ⟨congrArg f (by ring), by ring, congrArg f (by ring)⟩

theorem bisectionLoop_succ (f : ℝ → ℝ) (fuel : Nat) (v : BisectVal) :
    bisectionLoop f (fuel + 1) v =
      if bisectionCond v then bisectionLoop f fuel (bisectionBody f v) else v := rfl

theorem bisectionLoop_stay (f : ℝ → ℝ) (fuel : Nat) (v : BisectVal)
    (h : ¬ bisectionCond v) : bisectionLoop f fuel v = v := by
  cases fuel with
  | zero => rfl
  | succ n => simp only [bisectionLoop]; rw [if_neg h]

/-- With enough fuel the loop always exits through `cond_fun`, exactly
like the unbounded `jax.lax.while_loop`. -/
theorem bisectionLoop_exit (f : ℝ → ℝ) :
    ∀ (fuel : Nat) (v : BisectVal), bisectionMaxIters + 2 ≤ fuel + v.i →
      ¬ bisectionCond (bisectionLoop f fuel v) := by
  intro fuel
  induction fuel with
  | zero =>
      intro v hv
      simp only [bisectionLoop]
      intro hc
      exact hc (Or.inl (by omega))
  | succ n ih =>
      intro v hv
      simp only [bisectionLoop]
      by_cases h : bisectionCond v
      · rw [if_pos h]
        refine ih (bisectionBody f v) ?_
        rw [bisectionBody_i]
        omega
      · rw [if_neg h]; exact h

/-- The iteration counter never exceeds `max_iters + 1`: the body only
runs from states the guard admits. -/
theorem bisectionLoop_i_le (f : ℝ → ℝ) :
    ∀ (fuel : Nat) (v : BisectVal), v.i ≤ bisectionMaxIters + 1 →
      (bisectionLoop f fuel v).i ≤ bisectionMaxIters + 1 := by
  intro fuel
  induction fuel with
  | zero => intro v hv; exact hv
  | succ n ih =>
      intro v hv
      simp only [bisectionLoop]
      by_cases h : bisectionCond v
      · rw [if_pos h]
        refine ih _ ?_
        have hnotgt : ¬ v.i > bisectionMaxIters := fun hgt => h (Or.inl hgt)
        rw [bisectionBody_i]
        omega
      · rw [if_neg h]; exact hv

/-- Any property preserved by the body across guarded steps is preserved
by the whole loop. -/
theorem bisectionLoop_inv (f : ℝ → ℝ) (P : BisectVal → Prop)
    (hbody : ∀ v, P v → bisectionCond v → P (bisectionBody f v)) :
    ∀ (fuel : Nat) (v : BisectVal), P v → P (bisectionLoop f fuel v) := by
  intro fuel
  induction fuel with
  | zero => intro v hv; exact hv
  | succ n ih =>
      intro v hv
      simp only [bisectionLoop]
      by_cases h : bisectionCond v
      · rw [if_pos h]; exact ih _ (hbody v hv h)
      · rw [if_neg h]; exact hv

/-- One body step preserves the bracketing invariant when `f` is
strictly increasing. -/
theorem bisectInvariant_body (f : ℝ → ℝ) (hf : StrictMono f) (xs : ℝ)
    (v : BisectVal) (h : bisectInvariant f xs v) :
    bisectInvariant f xs (bisectionBody f v) := by
  obtain ⟨hx, hlo, hhi, hmid, hcx, hw, _⟩ := h
  by_cases hgt : v.currentX > v.x
  · have hz : xs < v.currentZ := by
      rw [hcx, hx] at hgt
      exact hf.lt_iff_lt.mp hgt
    rw [bisectionBody_gt f v hgt]
    refine ⟨hx, hlo, le_of_lt hz, ?_, rfl, ?_, Or.inl rfl⟩
    · show (v.currentZ + v.lower) / 2 = (v.lower + v.currentZ) / 2
      ring
    · show v.currentZ - v.lower = 2000 / 2 ^ (v.i + 1)
      have hhalf : v.currentZ - v.lower = (v.upper - v.lower) / 2 := by
        rw [hmid]; ring
      rw [hhalf, hw, pow_succ]
      ring
  · have hz : v.currentZ ≤ xs := by
      rw [hcx, hx] at hgt
      exact hf.le_iff_le.mp (le_of_not_lt hgt)
    rw [bisectionBody_le f v hgt]
    refine ⟨hx, hz, hhi, ?_, rfl, ?_, Or.inl rfl⟩
    · show (v.currentZ + v.upper) / 2 = (v.currentZ + v.upper) / 2
      ring
    · show v.upper - v.currentZ = 2000 / 2 ^ (v.i + 1)
      have hhalf : v.upper - v.currentZ = (v.upper - v.lower) / 2 := by
        rw [hmid]; ring
      rw [hhalf, hw, pow_succ]
      ring

/-- The bisection solver guarantee at the call site used by
`mixture_inverse`: for a strictly increasing `f` and a target `f xs`
whose pre-image `xs` lies in the fixed bracket `[-1000, 1000]`, the
returned point either satisfies the residual tolerance `|f z - f xs| <=
atol` or is within the fully-halved bracket `2000 / 2^(max_iters+1)` of
`xs`. -/
theorem bisection_solution (f : ℝ → ℝ) (hf : StrictMono f) (xs : ℝ)
    (hlo : -1000 ≤ xs) (hhi : xs ≤ 1000) :
    |f (bisection f (-1000) 1000 (f xs)) - f xs| ≤ bisectionAtol ∨
    |bisection f (-1000) 1000 (f xs) - xs| ≤ 2000 / 2 ^ (bisectionMaxIters + 1) := by
  have hinit : bisectInvariant f xs (bisectionInit f (-1000) 1000 (f xs)) := by
    refine ⟨rfl, hlo, hhi, by norm_num [bisectionInit], rfl, by norm_num [bisectionInit],
      Or.inr ⟨rfl, rfl⟩⟩
  have hinv : bisectInvariant f xs (bisectionRun f (-1000) 1000 (f xs)) :=
    bisectionLoop_inv f _ (fun w hw _ => bisectInvariant_body f hf xs w hw) _ _ hinit
  have hexit : ¬ bisectionCond (bisectionRun f (-1000) 1000 (f xs)) :=
    bisectionLoop_exit f _ _ (by simp [bisectionInit])
  have hile : (bisectionRun f (-1000) 1000 (f xs)).i ≤ bisectionMaxIters + 1 :=
    bisectionLoop_i_le f _ _ (by simp [bisectionInit])
  set vfin := bisectionRun f (-1000) 1000 (f xs) with hvfin
  obtain ⟨hx, hlo2, hhi2, hmid, hcx, hw, hdx⟩ := hinv
  rw [bisectionCond, not_not] at hexit
  have hret : bisection f (-1000) 1000 (f xs) = vfin.currentZ := rfl
  rcases hexit with hcap | htol
  · -- iteration cap reached: the bracket has been halved max_iters+1 times
    right
    have hieq : vfin.i = bisectionMaxIters + 1 := by omega
    have hwid : vfin.upper - vfin.lower = 2000 / 2 ^ (bisectionMaxIters + 1) := by
      rw [hw, hieq]
    have hpos : (0:ℝ) < 2000 / 2 ^ (bisectionMaxIters + 1) := by positivity
    rw [hret]
    have h1 : vfin.lower ≤ vfin.currentZ := by
      rw [hmid]; nlinarith [hwid, hpos]
    have h2 : vfin.currentZ ≤ vfin.upper := by
      rw [hmid]; nlinarith [hwid, hpos]
    rw [abs_le]
    constructor <;> nlinarith [hwid, hpos]
  · -- tolerance reached: the residual is a genuine one after step one
    rcases hdx with hdxeq | ⟨_, hdx10⟩
    · left
      rw [hdxeq, hcx, hx] at htol
      rw [hret]
      exact htol
    · exfalso
      rw [hdx10] at htol
      rw [bisectionAtol] at htol
      norm_num at htol

/-- C4 (amended): the bisection loop executes at most `max_iters + 1 =
10001` body iterations (the guard tests `i > max_iters` after the
counter has been incremented, so one extra iteration beyond the nominal
cap can run); it exits as soon as the stored residual is within the
default absolute tolerance `1e-8` or the counter passes the cap,
whichever first, and the function returns the `current_z` iterate of the
state it stopped in. -/
theorem C4_bisection_stopping (f : ℝ → ℝ) (lower upper x : ℝ) :
    bisection f lower upper x = (bisectionRun f lower upper x).currentZ ∧
    (bisectionRun f lower upper x).i ≤ bisectionMaxIters + 1 ∧
    (|(bisectionRun f lower upper x).dx| ≤ bisectionAtol ∨
      (bisectionRun f lower upper x).i = bisectionMaxIters + 1) := by
  have hexit : ¬ bisectionCond (bisectionRun f lower upper x) :=
    bisectionLoop_exit f _ _ (by simp [bisectionInit])
  have hile : (bisectionRun f lower upper x).i ≤ bisectionMaxIters + 1 :=
    bisectionLoop_i_le f _ _ (by simp [bisectionInit])
  rw [bisectionCond, not_not] at hexit
  refine ⟨rfl, hile, ?_⟩
  rcases hexit with hcap | htol
  · exact Or.inr (by omega)
  · exact Or.inl htol

/-- If some body-invariant forces every post-step residual out of
tolerance, the loop runs all the way to the iteration cap. -/
theorem bisectionLoop_cap_reached (f : ℝ → ℝ) (P : BisectVal → Prop)
    (hP : ∀ w, P w → P (bisectionBody f w))
    (hPdx : ∀ w, P w → ¬ |(bisectionBody f w).dx| ≤ bisectionAtol) :
    ∀ (fuel : Nat) (v : BisectVal), P v → ¬ |v.dx| ≤ bisectionAtol →
      v.i ≤ bisectionMaxIters → bisectionMaxIters + 2 ≤ fuel + v.i →
      (bisectionLoop f fuel v).i = bisectionMaxIters + 1 := by
  intro fuel
  induction fuel with
  | zero => intro v _ _ hi hfuel; omega
  | succ n ih =>
      intro v hPv hdx hi hfuel
      have hcond : bisectionCond v := by
        intro hor
        rcases hor with hgt | htol
        · omega
        · exact hdx htol
      simp only [bisectionLoop]
      rw [if_pos hcond]
      by_cases hlast : v.i = bisectionMaxIters
      · have hstay : bisectionLoop f n (bisectionBody f v) = bisectionBody f v := by
          apply bisectionLoop_stay
          intro hc
          exact hc (Or.inl (by rw [bisectionBody_i]; omega))
        rw [hstay, bisectionBody_i, hlast]
      · refine ih (bisectionBody f v) (hP v hPv) (hPdx v hPv) ?_ ?_ <;>
          rw [bisectionBody_i] <;> omega

/-! ## Component-axis list lemmas -/

theorem zip3With_cons (g : ℝ → ℝ → ℝ → ℝ) (w m s : ℝ) (ws ms ss : List ℝ) :
    zip3With g (w :: ws) (m :: ms) (s :: ss) = g w m s :: zip3With g ws ms ss := rfl

theorem zip3With_nil_left (g : ℝ → ℝ → ℝ → ℝ) (ms ss : List ℝ) :
    zip3With g [] ms ss = [] := by
  cases ms <;> cases ss <;> rfl

theorem zip3With_nil_mid (g : ℝ → ℝ → ℝ → ℝ) (ws ss : List ℝ) :
    zip3With g ws [] ss = [] := by
  cases ws <;> cases ss <;> rfl

theorem zip3With_nil_right (g : ℝ → ℝ → ℝ → ℝ) (ws ms : List ℝ) :
    zip3With g ws ms [] = [] := by
  cases ws <;> cases ms <;> rfl

theorem zip3With_map (h : ℝ → ℝ) (g : ℝ → ℝ → ℝ → ℝ) :
    ∀ ws ms ss : List ℝ,
      (zip3With g ws ms ss).map h = zip3With (fun a b c => h (g a b c)) ws ms ss := by
  intro ws
  induction ws with
  | nil => intro ms ss; simp [zip3With_nil_left]
  | cons w ws ih =>
      intro ms ss
      cases ms with
      | nil => simp [zip3With_nil_mid]
      | cons m ms =>
          cases ss with
          | nil => simp [zip3With_nil_right]
          | cons s ss => simp [zip3With_cons, ih]

theorem mem_zip3With (g : ℝ → ℝ → ℝ → ℝ) :
    ∀ (ws ms ss : List ℝ) (a : ℝ), a ∈ zip3With g ws ms ss →
      ∃ w m s, a = g w m s := by
  intro ws
  induction ws with
  | nil =>
      intro ms ss a ha
      rw [zip3With_nil_left] at ha
      exact absurd ha (List.not_mem_nil a)
  | cons w ws ih =>
      intro ms ss a ha
      cases ms with
      | nil =>
          rw [zip3With_nil_mid] at ha
          exact absurd ha (List.not_mem_nil a)
      | cons m ms =>
          cases ss with
          | nil =>
              rw [zip3With_nil_right] at ha
              exact absurd ha (List.not_mem_nil a)
          | cons s ss =>
              rw [zip3With_cons, List.mem_cons] at ha
              rcases ha with rfl | ha
              · exact ⟨w, m, s, rfl⟩
              · exact ih ms ss a ha

theorem zip3With_ne_nil (g : ℝ → ℝ → ℝ → ℝ) (ws ms ss : List ℝ)
    (hws : ws ≠ []) (hms : ms ≠ []) (hss : ss ≠ []) :
    zip3With g ws ms ss ≠ [] := by
  cases ws with
  | nil => exact absurd rfl hws
  | cons w ws =>
      cases ms with
      | nil => exact absurd rfl hms
      | cons m ms =>
          cases ss with
          | nil => exact absurd rfl hss
          | cons s ss =>
              rw [zip3With_cons]
              exact List.cons_ne_nil _ _

/-- A componentwise sum of monotone-in-`x` terms is monotone. -/
theorem zip3With_sum_monotone (g : ℝ → ℝ → ℝ → ℝ → ℝ)
    (hg : ∀ w m s, StrictMono fun x => g w m s x) :
    ∀ ws ms ss : List ℝ,
      Monotone fun x => (zip3With (fun w m s => g w m s x) ws ms ss).sum := by
  intro ws
  induction ws with
  | nil =>
      intro ms ss
      simpa [zip3With_nil_left] using monotone_const
  | cons w ws ih =>
      intro ms ss
      cases ms with
      | nil => simpa [zip3With_nil_mid] using monotone_const
      | cons m ms =>
          cases ss with
          | nil => simpa [zip3With_nil_right] using monotone_const
          | cons s ss =>
              simp only [zip3With_cons, List.sum_cons]
              exact Monotone.add (hg w m s).monotone (ih ms ss)

/-- A nonempty componentwise sum of strictly monotone terms is strictly
monotone. -/
theorem zip3With_sum_strictMono (g : ℝ → ℝ → ℝ → ℝ → ℝ)
    (hg : ∀ w m s, StrictMono fun x => g w m s x)
    (ws ms ss : List ℝ) (hws : ws ≠ []) (hms : ms ≠ []) (hss : ss ≠ []) :
    StrictMono fun x => (zip3With (fun w m s => g w m s x) ws ms ss).sum := by
  cases ws with
  | nil => exact absurd rfl hws
  | cons w ws =>
      cases ms with
      | nil => exact absurd rfl hms
      | cons m ms =>
          cases ss with
          | nil => exact absurd rfl hss
          | cons s ss =>
              simp only [zip3With_cons, List.sum_cons]
              intro a b hab
              exact add_lt_add_of_lt_of_le (hg w m s hab)
                (zip3With_sum_monotone g hg ws ms ss hab.le)

/-! ## Strict monotonicity of the mixture CDFs -/

theorem ndtr_strictMono : StrictMono ndtr := by
  have hint : MeasureTheory.Integrable (fun t : ℝ => Real.exp (-(1 / 2 : ℝ) * t ^ 2)) :=
    integrable_exp_neg_mul_sq (by norm_num)
  intro a b hab
  unfold ndtr
  have hsub :
      ((∫ t in Set.Iic b, Real.exp (-(1 / 2 : ℝ) * t ^ 2)) -
        ∫ t in Set.Iic a, Real.exp (-(1 / 2 : ℝ) * t ^ 2)) =
      ∫ t in a..b, Real.exp (-(1 / 2 : ℝ) * t ^ 2) :=
    intervalIntegral.integral_Iic_sub_Iic hint.integrableOn hint.integrableOn
  have hpos : 0 < ∫ t in a..b, Real.exp (-(1 / 2 : ℝ) * t ^ 2) :=
    intervalIntegral.intervalIntegral_pos_of_pos (hint.intervalIntegrable)
      (fun t => Real.exp_pos _) hab
  have hc : (0 : ℝ) < (Real.sqrt (2 * Real.pi))⁻¹ := by
    have h2pi : (0 : ℝ) < 2 * Real.pi := by positivity
    have := Real.sqrt_pos.mpr h2pi
    positivity
  exact mul_lt_mul_of_pos_left (by linarith) hc

theorem logSigmoid_strictMono : StrictMono logSigmoid := by
  intro a b hab
  unfold logSigmoid
  have h1 : Real.exp (-b) < Real.exp (-a) := Real.exp_lt_exp.mpr (by linarith)
  have h2 : (0 : ℝ) < 1 + Real.exp (-b) := by positivity
  have h3 := Real.log_lt_log h2 (by linarith : 1 + Real.exp (-b) < 1 + Real.exp (-a))
  linarith

theorem gaussF_strictMono (ws ms ss : List ℝ)
    (hws : ws ≠ []) (hms : ms ≠ []) (hss : ss ≠ []) :
    StrictMono (gaussF ws ms ss) := by
  have hterm : ∀ w m s : ℝ,
      StrictMono fun x => Real.exp w * ndtr ((x - m) * Real.exp (-0.5 * s)) := by
    intro w m s a b hab
    have hc : (0 : ℝ) < Real.exp (-0.5 * s) := Real.exp_pos _
    have hin : (a - m) * Real.exp (-0.5 * s) < (b - m) * Real.exp (-0.5 * s) :=
      mul_lt_mul_of_pos_right (by linarith) hc
    exact mul_lt_mul_of_pos_left (ndtr_strictMono hin) (Real.exp_pos w)
  have hlw : logSoftmax ws ≠ [] := by
    simp only [logSoftmax, ne_eq, List.map_eq_nil_iff]
    exact hws
  exact zip3With_sum_strictMono
    (fun w m s x => Real.exp w * ndtr ((x - m) * Real.exp (-0.5 * s)))
    hterm (logSoftmax ws) ms ss hlw hms hss

/-- The exponentiated-log-sum form of the logistic mixture CDF equals
the plain weighted sum of per-component terms. -/
theorem logisticF_eq_sum (ws ms ss : List ℝ)
    (hws : ws ≠ []) (hms : ms ≠ []) (hss : ss ≠ []) (x : ℝ) :
    logisticF ws ms ss x =
      (zip3With (fun w m s => Real.exp (w + logSigmoid ((x - m) * Real.exp (-s))))
        (logSoftmax ws) ms ss).sum := by
  have hlw : logSoftmax ws ≠ [] := by
    simp only [logSoftmax, ne_eq, List.map_eq_nil_iff]
    exact hws
  have hmap := zip3With_map Real.exp
    (fun w m s => w + logSigmoid ((x - m) * Real.exp (-s))) (logSoftmax ws) ms ss
  have hne : zip3With (fun w m s => Real.exp (w + logSigmoid ((x - m) * Real.exp (-s))))
      (logSoftmax ws) ms ss ≠ [] :=
    zip3With_ne_nil _ _ _ _ hlw hms hss
  have hposmem : ∀ a ∈ zip3With
      (fun w m s => Real.exp (w + logSigmoid ((x - m) * Real.exp (-s))))
      (logSoftmax ws) ms ss, 0 < a := by
    intro a ha
    obtain ⟨w, m, s, rfl⟩ := mem_zip3With _ _ _ _ a ha
    exact Real.exp_pos _
  have hspos : 0 < (zip3With
      (fun w m s => Real.exp (w + logSigmoid ((x - m) * Real.exp (-s))))
      (logSoftmax ws) ms ss).sum :=
    List.sum_pos _ hposmem hne
  unfold logisticF logsumexp
  rw [hmap]
  exact Real.exp_log hspos

theorem logisticF_strictMono (ws ms ss : List ℝ)
    (hws : ws ≠ []) (hms : ms ≠ []) (hss : ss ≠ []) :
    StrictMono (logisticF ws ms ss) := by
  have hterm : ∀ w m s : ℝ,
      StrictMono fun x => Real.exp (w + logSigmoid ((x - m) * Real.exp (-s))) := by
    intro w m s a b hab
    have hc : (0 : ℝ) < Real.exp (-s) := Real.exp_pos _
    have hin : (a - m) * Real.exp (-s) < (b - m) * Real.exp (-s) :=
      mul_lt_mul_of_pos_right (by linarith) hc
    have hls := logSigmoid_strictMono hin
    exact Real.exp_lt_exp.mpr (by linarith)
  have hlw : logSoftmax ws ≠ [] := by
    simp only [logSoftmax, ne_eq, List.map_eq_nil_iff]
    exact hws
  intro a b hab
  rw [logisticF_eq_sum ws ms ss hws hms hss a, logisticF_eq_sum ws ms ss hws hms hss b]
  exact zip3With_sum_strictMono
    (fun w m s x => Real.exp (w + logSigmoid ((x - m) * Real.exp (-s))))
    hterm (logSoftmax ws) ms ss hlw hms hss hab

theorem kindF_strictMono (k : MixtureKind) (ws ms ss : List ℝ)
    (hws : ws ≠ []) (hms : ms ≠ []) (hss : ss ≠ []) :
    StrictMono (kindF k ws ms ss) := by
  cases k with
  | gaussian => exact gaussF_strictMono ws ms ss hws hms hss
  | logistic => exact logisticF_strictMono ws ms ss hws hms hss

/-! ## Structural lemmas for the element-mapped transforms -/

theorem mixtureForward_cons_fst (k : MixtureKind) (xi : ℝ) (xrest : List ℝ)
    (ti : List ℝ) (trest : List (List ℝ)) :
    (mixtureForward k (xi :: xrest) (ti :: trest)).1 =
      (forwardElem k ti xi).1 :: (mixtureForward k xrest trest).1 := rfl

theorem mixtureForward_cons_snd (k : MixtureKind) (xi : ℝ) (xrest : List ℝ)
    (ti : List ℝ) (trest : List (List ℝ)) :
    (mixtureForward k (xi :: xrest) (ti :: trest)).2 =
      (forwardElem k ti xi).2 + (mixtureForward k xrest trest).2 := rfl

theorem mixtureInverse_cons_fst (k : MixtureKind) (zi : ℝ) (zrest : List ℝ)
    (ti : List ℝ) (trest : List (List ℝ)) :
    (mixtureInverse k (zi :: zrest) (ti :: trest)).1 =
      (inverseElem k ti zi).1 :: (mixtureInverse k zrest trest).1 := rfl

theorem mixtureInverse_cons_snd (k : MixtureKind) (zi : ℝ) (zrest : List ℝ)
    (ti : List ℝ) (trest : List (List ℝ)) :
    (mixtureInverse k (zi :: zrest) (ti :: trest)).2 =
      (inverseElem k ti zi).2 + (mixtureInverse k zrest trest).2 := rfl

theorem mixtureForward_fst_length (k : MixtureKind) (x : List ℝ)
    (theta : List (List ℝ)) :
    (mixtureForward k x theta).1.length = min x.length theta.length := by
  simp [mixtureForward]

theorem mixtureForward_fst_getD (k : MixtureKind) :
    ∀ (x : List ℝ) (theta : List (List ℝ)) (i : Nat), i < x.length → i < theta.length →
      (mixtureForward k x theta).1.getD i 0 =
        (forwardElem k (theta.getD i []) (x.getD i 0)).1 := by
  intro x
  induction x with
  | nil => intro theta i h1 _; simp at h1
  | cons xi xs ih =>
      intro theta i h1 h2
      cases theta with
      | nil => simp at h2
      | cons ti ts =>
          cases i with
          | zero => rfl
          | succ n =>
              rw [mixtureForward_cons_fst]
              simp only [List.getD_cons_succ]
              exact ih ts n (by simpa using h1) (by simpa using h2)

theorem mixtureInverse_fst_getD (k : MixtureKind) :
    ∀ (z : List ℝ) (theta : List (List ℝ)) (i : Nat), i < z.length → i < theta.length →
      (mixtureInverse k z theta).1.getD i 0 =
        (inverseElem k (theta.getD i []) (z.getD i 0)).1 := by
  intro z
  induction z with
  | nil => intro theta i h1 _; simp at h1
  | cons zi zs ih =>
      intro theta i h1 h2
      cases theta with
      | nil => simp at h2
      | cons ti ts =>
          cases i with
          | zero => rfl
          | succ n =>
              rw [mixtureInverse_cons_fst]
              simp only [List.getD_cons_succ]
              exact ih ts n (by simpa using h1) (by simpa using h2)

/-! ## Splitting bounds -/

/-- For a theta wide enough to hold one component (width at least 5),
all three mixture slices of the split are nonempty. -/
theorem splitTheta_slices_ne_nil (ti : List ℝ) (hti : 5 ≤ ti.length) :
    (splitTheta ti).1 ≠ [] ∧ (splitTheta ti).2.1 ≠ [] ∧ (splitTheta ti).2.2.1 ≠ [] := by
  have hK1 : 1 ≤ nComponentsFromWidth ti.length := by
    unfold nComponentsFromWidth; omega
  have hK3 : 3 * nComponentsFromWidth ti.length + 2 ≤ ti.length := by
    unfold nComponentsFromWidth; omega
  refine ⟨?_, ?_, ?_⟩
  · apply List.ne_nil_of_length_pos
    simp only [splitTheta, List.length_take]
    omega
  · apply List.ne_nil_of_length_pos
    simp only [splitTheta, List.length_take, List.length_drop]
    omega
  · apply List.ne_nil_of_length_pos
    simp only [splitTheta, List.length_take, List.length_drop]
    omega

/-- C5: for every variant, every element list and every per-element
theta, `mixture_forward` returns exactly the spec formulas: elementwise
`z = (mixture_cdf(x) - t) * exp(-log_s)` with the bounded log scale
`log_s = 1.5*tanh(raw)`, and a total log-determinant equal to the summed
mixture log densities minus the summed bounded log scales. -/
theorem C5_forward_affine_formula (k : MixtureKind) (x : List ℝ)
    (theta : List (List ℝ)) :
    (mixtureForward k x theta).1 =
      List.zipWith (fun xi ti => specForwardZ k ti xi) x theta ∧
    (mixtureForward k x theta).2 =
      (List.zipWith (fun xi ti => specMixtureLogDensity k ti xi) x theta).sum -
      (List.zipWith (fun xi ti => specLogScaleBound ti) x theta).sum := by
  induction x generalizing theta with
  | nil => exact ⟨rfl, by simp [mixtureForward]⟩
  | cons xi xrest ih =>
      cases theta with
      | nil => exact ⟨rfl, by simp [mixtureForward]⟩
      | cons ti trest =>
          obtain ⟨ih1, ih2⟩ := ih trest
          constructor
          · rw [mixtureForward_cons_fst, ih1, List.zipWith_cons_cons]
            rfl
          · rw [mixtureForward_cons_snd, ih2, List.zipWith_cons_cons,
              List.zipWith_cons_cons, List.sum_cons, List.sum_cons,
              show (forwardElem k ti xi).2 =
                specMixtureLogDensity k ti xi - specLogScaleBound ti from rfl]
            ring

/-- C2 (amended): for every variant, latent list and theta, the
log-determinant reported by `mixture_inverse` equals the one
`mixture_forward` reports at the reconstructed point — the inverse keeps
the forward orientation of the log-determinant instead of negating it. -/
theorem C2_inverse_logdet_matches_forward (k : MixtureKind) (z : List ℝ)
    (theta : List (List ℝ)) :
    (mixtureInverse k z theta).2 =
      (mixtureForward k (mixtureInverse k z theta).1 theta).2 := by
  induction z generalizing theta with
  | nil => rfl
  | cons zi zrest ih =>
      cases theta with
      | nil => rfl
      | cons ti trest =>
          rw [mixtureInverse_cons_snd, mixtureInverse_cons_fst,
            mixtureForward_cons_snd, ih trest]
          congr 1

/-- Inverting the affine step inside `inverseElem` recovers the plain
mixture CDF value of the original input when the element fed to it came
from `forwardElem` with the same theta. -/
theorem roundtripElem (k : MixtureKind) (ti : List ℝ) (hti : 5 ≤ ti.length)
    (xi : ℝ) (hlo : -1000 ≤ xi) (hhi : xi ≤ 1000) :
    |specMixtureCDF k ti ((inverseElem k ti (forwardElem k ti xi).1).1) -
      specMixtureCDF k ti xi| ≤ bisectionAtol ∨
    |(inverseElem k ti (forwardElem k ti xi).1).1 - xi| ≤
      2000 / 2 ^ (bisectionMaxIters + 1) := by
  obtain ⟨hwne, hmne, hsne⟩ := splitTheta_slices_ne_nil ti hti
  have hf : StrictMono (kindF k (splitTheta ti).1 (splitTheta ti).2.1 (splitTheta ti).2.2.1) :=
    kindF_strictMono k _ _ _ hwne hmne hsne
  have htarget :
      (forwardElem k ti xi).1 * Real.exp (1.5 * Real.tanh (splitTheta ti).2.2.2.1) +
        (splitTheta ti).2.2.2.2 =
      kindF k (splitTheta ti).1 (splitTheta ti).2.1 (splitTheta ti).2.2.1 xi := by
    rw [show (forwardElem k ti xi).1 =
        (kindF k (splitTheta ti).1 (splitTheta ti).2.1 (splitTheta ti).2.2.1 xi -
          (splitTheta ti).2.2.2.2) *
          Real.exp (-(1.5 * Real.tanh (splitTheta ti).2.2.2.1)) from rfl,
      Real.exp_neg]
    field_simp
  have hr : (inverseElem k ti (forwardElem k ti xi).1).1 =
      bisection (kindF k (splitTheta ti).1 (splitTheta ti).2.1 (splitTheta ti).2.2.1)
        (-1000) 1000
        (kindF k (splitTheta ti).1 (splitTheta ti).2.1 (splitTheta ti).2.2.1 xi) := by
    rw [show (inverseElem k ti (forwardElem k ti xi).1).1 =
        bisection (kindF k (splitTheta ti).1 (splitTheta ti).2.1 (splitTheta ti).2.2.1)
          (-1000) 1000
          ((forwardElem k ti xi).1 * Real.exp (1.5 * Real.tanh (splitTheta ti).2.2.2.1) +
            (splitTheta ti).2.2.2.2) from rfl,
      htarget]
  rw [hr]
  exact bisection_solution _ hf xi hlo hhi

/-- C1: for both mixture-CDF bijection variants, every per-element
theta wide enough to hold a component, and every input vector lying in
the bisection bracket `[-1000, 1000]` (so that the pre-image of the
forward output is inside the bracket), applying `mixture_inverse` to the
`mixture_forward` output reproduces each input element up to the
stopping guarantee of the solver: either the mixture-CDF residual is within
the absolute tolerance `1e-8`, or the element is within the fully
halved bracket width `2000 / 2^10001` of the original input. -/
theorem C1_inverse_forward_roundtrip (k : MixtureKind) (x : List ℝ)
    (theta : List (List ℝ))
    (htheta : ∀ ti ∈ theta, 5 ≤ ti.length)
    (hx : ∀ u ∈ x, -1000 ≤ u ∧ u ≤ 1000)
    (i : Nat) (hix : i < x.length) (hit : i < theta.length) :
    |specMixtureCDF k (theta.getD i [])
        ((mixtureInverse k (mixtureForward k x theta).1 theta).1.getD i 0) -
      specMixtureCDF k (theta.getD i []) (x.getD i 0)| ≤ bisectionAtol ∨
    |(mixtureInverse k (mixtureForward k x theta).1 theta).1.getD i 0 - x.getD i 0| ≤
      2000 / 2 ^ (bisectionMaxIters + 1) := by
  have hzlen : (mixtureForward k x theta).1.length = min x.length theta.length :=
    mixtureForward_fst_length k x theta
  have hrget : (mixtureInverse k (mixtureForward k x theta).1 theta).1.getD i 0 =
      (inverseElem k (theta.getD i []) ((mixtureForward k x theta).1.getD i 0)).1 :=
    mixtureInverse_fst_getD k _ theta i (by omega) hit
  have hzget : (mixtureForward k x theta).1.getD i 0 =
      (forwardElem k (theta.getD i []) (x.getD i 0)).1 :=
    mixtureForward_fst_getD k x theta i hix hit
  rw [hrget, hzget]
  have htmem : theta.getD i [] ∈ theta := by
    rw [List.getD_eq_getElem theta [] hit]
    exact List.getElem_mem hit
  have hxmem : x.getD i 0 ∈ x := by
    rw [List.getD_eq_getElem x 0 hix]
    exact List.getElem_mem hix
  exact roundtripElem k _ (htheta _ htmem) _ (hx _ hxmem).1 (hx _ hxmem).2

/-- C1 witness: the round-trip guarantee instantiated at the Gaussian
variant, a single element `x = [0]` and the zero theta of width 5. -/
theorem C1_inverse_forward_roundtrip_witness :
    |specMixtureCDF .gaussian [0, 0, 0, 0, 0]
        ((mixtureInverse .gaussian
            (mixtureForward .gaussian [0] [[0, 0, 0, 0, 0]]).1
            [[0, 0, 0, 0, 0]]).1.getD 0 0) -
      specMixtureCDF .gaussian [0, 0, 0, 0, 0] (([0] : List ℝ).getD 0 0)| ≤ bisectionAtol ∨
    |(mixtureInverse .gaussian
        (mixtureForward .gaussian [0] [[0, 0, 0, 0, 0]]).1
        [[0, 0, 0, 0, 0]]).1.getD 0 0 - ([0] : List ℝ).getD 0 0| ≤
      2000 / 2 ^ (bisectionMaxIters + 1) :=
  C1_inverse_forward_roundtrip .gaussian [0] [[0, 0, 0, 0, 0]]
    (by intro ti hti; rw [List.mem_singleton] at hti; subst hti; norm_num)
    (by intro u hu; rw [List.mem_singleton] at hu; subst hu; norm_num)
    0 (by norm_num) (by norm_num)

/-! ## A concrete mixture evaluation for the log-determinant claim -/

theorem logSoftmax_zero : logSoftmax [0] = [0] := by
  simp [logSoftmax, Real.exp_zero, Real.log_one]

theorem gaussF_zero_theta (u : ℝ) : gaussF [0] [0] [0] u = ndtr u := by
  rw [gaussF, logSoftmax_zero]
  simp [zip3With]

theorem gaussLogDet_zero_theta (u : ℝ) :
    gaussLogDet [0] [0] [0] u = -0.5 * u ^ 2 - 0.5 * Real.log (2 * Real.pi) := by
  rw [gaussLogDet, logSoftmax_zero]
  simp [zip3With, logsumexp, Real.log_exp]

theorem splitTheta_zero5 :
    splitTheta [0, 0, 0, 0, 0] = ([0], [0], [0], (0 : ℝ), (0 : ℝ)) := rfl

theorem forwardElem_zero_theta (u : ℝ) :
    forwardElem .gaussian [0, 0, 0, 0, 0] u =
      (ndtr u, -0.5 * u ^ 2 - 0.5 * Real.log (2 * Real.pi)) := by
  simp only [forwardElem, splitTheta_zero5, kindF, kindLogDet]
  rw [Real.tanh_zero]
  norm_num [gaussF_zero_theta, gaussLogDet_zero_theta]

/-- The concrete bisection run for the target `ndtr(-500)`: the first
body step moves the midpoint to `-500`, where the residual is exactly
zero, so the loop stops after one iteration and returns `-500`. -/
theorem ndtr_bisection_neg500 : bisection ndtr (-1000) 1000 (ndtr (-500)) = -500 := by
  have hcond0 : bisectionCond (bisectionInit ndtr (-1000) 1000 (ndtr (-500))) := by
    intro h
    rcases h with h | h
    · simp [bisectionInit, bisectionMaxIters] at h
    · rw [show (bisectionInit ndtr (-1000) 1000 (ndtr (-500))).dx = 10 from rfl,
        bisectionAtol] at h
      rw [abs_of_pos (by norm_num : (0:ℝ) < 10)] at h
      norm_num at h
  have hgt0 : (bisectionInit ndtr (-1000) 1000 (ndtr (-500))).currentX >
      (bisectionInit ndtr (-1000) 1000 (ndtr (-500))).x := by
    show ndtr (-500) < ndtr 0
    exact ndtr_strictMono (by norm_num)
  have hstep : bisectionBody ndtr (bisectionInit ndtr (-1000) 1000 (ndtr (-500))) =
      { x := ndtr (-500), currentX := ndtr (-500), currentZ := -500, lower := -1000,
        upper := 0, dx := ndtr (-500) - ndtr (-500), i := 1 } := by
    rw [bisectionBody_gt ndtr _ hgt0]
    simp only [bisectionInit]
    norm_num
  show (bisectionRun ndtr (-1000) 1000 (ndtr (-500))).currentZ = -500
  rw [bisectionRun, show bisectionMaxIters + 2 = 10001 + 1 from rfl,
    bisectionLoop_succ]
  rw [if_pos hcond0, hstep, bisectionLoop_stay ndtr 10001 _
    (fun hc => hc (Or.inr (by
      show |ndtr (-500) - ndtr (-500)| ≤ bisectionAtol
      rw [sub_self, abs_zero, bisectionAtol]
      norm_num)))]

/-- C2 counterexample: for the Gaussian variant with the width-5 zero
theta and input `x = [-500]`, the forward pass reports `ld_f =
-125000 - 0.5*log(2*pi)` and the inverse pass at the forward output
reproduces `x` exactly and reports the same `ld_i = ld_f`; since this
value is nonzero, `ld_f` is not equal to `-ld_i`. -/
theorem C2_counterexample_not_negated :
    ¬ ((mixtureForward .gaussian [-500] [[0, 0, 0, 0, 0]]).2 =
      -(mixtureInverse .gaussian (mixtureForward .gaussian [-500] [[0, 0, 0, 0, 0]]).1
          [[0, 0, 0, 0, 0]]).2) := by
  have hfwd1 : (mixtureForward .gaussian [-500] [[0, 0, 0, 0, 0]]).1 = [ndtr (-500)] := by
    rw [show (mixtureForward .gaussian [-500] [[0, 0, 0, 0, 0]]).1 =
        [(forwardElem .gaussian [0, 0, 0, 0, 0] (-500)).1] from rfl,
      forwardElem_zero_theta]
  have hfwd2 : (mixtureForward .gaussian [-500] [[0, 0, 0, 0, 0]]).2 =
      -0.5 * (-500 : ℝ) ^ 2 - 0.5 * Real.log (2 * Real.pi) := by
    rw [show (mixtureForward .gaussian [-500] [[0, 0, 0, 0, 0]]).2 =
        (forwardElem .gaussian [0, 0, 0, 0, 0] (-500)).2 + 0 from rfl,
      forwardElem_zero_theta]
    norm_num
  have hfn : kindF .gaussian [0] [0] [0] = ndtr :=
    funext fun u => gaussF_zero_theta u
  have hinv2 : (mixtureInverse .gaussian [ndtr (-500)] [[0, 0, 0, 0, 0]]).2 =
      -0.5 * (-500 : ℝ) ^ 2 - 0.5 * Real.log (2 * Real.pi) := by
    rw [show (mixtureInverse .gaussian [ndtr (-500)] [[0, 0, 0, 0, 0]]).2 =
        (kindLogDet .gaussian [0] [0] [0]
          (bisection (kindF .gaussian [0] [0] [0]) (-1000) 1000
            (ndtr (-500) * Real.exp (1.5 * Real.tanh 0) + 0)) -
          1.5 * Real.tanh 0) + 0 from rfl]
    rw [Real.tanh_zero, hfn]
    norm_num
    rw [ndtr_bisection_neg500,
      show kindLogDet MixtureKind.gaussian = gaussLogDet from rfl,
      gaussLogDet_zero_theta]
    norm_num
  rw [hfwd1, hfwd2, hinv2]
  intro h
  have hsq : ((-500 : ℝ)) ^ 2 = 250000 := by norm_num
  rw [hsq] at h
  have hpi : 0 < Real.log (2 * Real.pi) :=
    Real.log_pos (by nlinarith [Real.pi_gt_three])
  linarith

/-- C6: `AffineGaussianPriorDiagCov.inverse` without an RNG key returns
exactly `x = A z`, reports the log density `-0.5 * log|det(A^T A)|`
(`jnp.linalg.slogdet`), and passes the state `sigma` through unchanged;
with an RNG key the reported value is instead the diagonal Gaussian
log-pdf of the injected noise, with the state again unchanged. -/
theorem C6_diag_prior_inverse {dx dz : Nat} (A : Matrix (Fin dx) (Fin dz) ℝ)
    (logDiagCov : Fin dx → ℝ) (sigma : ℝ) (z : Fin dz → ℝ) (eps : Fin dx → ℝ) :
    (diagCovInverse A logDiagCov sigma z none).x = A.mulVec z ∧
    (diagCovInverse A logDiagCov sigma z none).log_det =
      -0.5 * Real.log |(A.transpose * A).det| ∧
    (diagCovInverse A logDiagCov sigma z none).sigma = sigma ∧
    (diagCovInverse A logDiagCov sigma z (some eps)).x =
      (fun i => A.mulVec z i + eps i * Real.exp (0.5 * logDiagCov i) * sigma) ∧
    (diagCovInverse A logDiagCov sigma z (some eps)).log_det =
      gaussianDiagCovLogpdf
        (fun i => eps i * Real.exp (0.5 * logDiagCov i) * sigma)
        (fun _ => 0) logDiagCov ∧
    (diagCovInverse A logDiagCov sigma z (some eps)).sigma = sigma := by
  have hmv : einsumMV A z = A.mulVec z := by
    funext i
    simp [einsumMV, Matrix.mulVec, Matrix.dotProduct]
  refine ⟨?_, rfl, rfl, ?_, rfl, rfl⟩
  · exact hmv
  · funext i
    rw [show (diagCovInverse A logDiagCov sigma z (some eps)).x i =
        einsumMV A z i + eps i * Real.exp (0.5 * logDiagCov i) * sigma from rfl, hmv]

/-- C4 counterexample: with the constant function `f = 0` and target
`x = 1` the residual is `-1` forever, so the loop executes `10001` body
iterations — one more than the nominal `max_iters = 10000` cap the claim
states. -/
theorem C4_counterexample_10001_iterations :
    (bisectionRun (fun _ => (0:ℝ)) (-1000) 1000 1).i = 10001 ∧
    bisectionMaxIters = 10000 := by
  constructor
  · have h := bisectionLoop_cap_reached (fun _ => (0:ℝ)) (fun w => w.x = 1)
      (fun w hw => hw)
      (fun w hw => by
        have : (bisectionBody (fun _ => (0:ℝ)) w).dx = 0 - w.x := rfl
        rw [this, hw, bisectionAtol]
        norm_num)
      (bisectionMaxIters + 2) (bisectionInit (fun _ => (0:ℝ)) (-1000) 1000 1)
      rfl
      (by rw [bisectionAtol]; norm_num [bisectionInit])
      (by simp [bisectionInit])
      (by simp [bisectionInit])
    exact h
  · rfl

end NuX
